import Mathlib

/-!
Verification of the reactive-state core of the repository: the dependency
registry (`Dep`), the computation unit (`Watcher`), the deferred-callback
(tick) mechanism, the deep-traversal helper and the path parser.

Each definition below is a shallow embedding of one function of the source:
the file and line range it is taken from are named in its doc comment.
Watchers and deps are identified by their numeric ids (`uid` counters in the
source); the subscriber lists of all deps are modelled as one map from dep id
to the list of subscribed watcher ids.
-/

/-- JavaScript values as far as the core inspects them: primitives are kept
concretely, objects and arrays are references into a heap (identity only,
which is all `===` and `isObject` look at).  `nan` is separate from `num`
because `NaN !== NaN`. -/
inductive JSVal where
  | undef
  | null
  | bool (b : Bool)
  | num (n : Int)
  | nan
  | str (s : String)
  | obj (ref : Nat)
deriving DecidableEq, Repr

/-- JavaScript strict equality `===` on the modelled values: equal primitives
are equal, object references compare by identity, and `NaN === NaN` is
`false`. -/
def strictEq : JSVal → JSVal → Bool
  | JSVal.undef, JSVal.undef => true
  | JSVal.null, JSVal.null => true
  | JSVal.bool a, JSVal.bool b => a == b
  | JSVal.num a, JSVal.num b => a == b
  | JSVal.str a, JSVal.str b => a == b
  | JSVal.obj a, JSVal.obj b => a == b
  | _, _ => false

/-- Modelled from the spec: the util module's `isObject` (absent from src/),
"a structured (non-primitive) value" — an object or array reference, not
`null` and not a primitive. -/
def isObject : JSVal → Bool
  | JSVal.obj _ => true
  | _ => false

/-- JavaScript truthiness: `undefined`, `null`, `false`, `0`, `NaN` and the
empty string are falsy, everything else (in particular every object) is
truthy. -/
def falsy : JSVal → Bool
  | JSVal.undef => true
  | JSVal.null => true
  | JSVal.bool b => !b
  | JSVal.num n => n == 0
  | JSVal.nan => true
  | JSVal.str s => s == ""
  | JSVal.obj _ => false

/-- Modelled from the spec: the util module's `remove` (absent from src/),
used by `Dep.removeSub` and `teardown` — "remove unit; no-op if absent".
It removes the first occurrence (`indexOf` + `splice(index, 1)`). -/
def removeFirst (x : Nat) : List Nat → List Nat
  | [] => []
  | y :: ys => if y = x then ys else y :: removeFirst x ys

/-- The fields of one `Watcher` (src/unnamed/part_002, lines 27-114) that the
dependency bookkeeping, `run` and `teardown` read or write.  `deps`,
`newDeps` hold dep ids (the source stores the `Dep` objects themselves and
separately their ids in the sets `depIds`, `newDepIds`; ids identify deps
uniquely, so both sides are lists of ids here). -/
structure Watcher where
  active : Bool
  deep : Bool
  user : Bool
  value : JSVal
  deps : List Nat
  newDeps : List Nat
  depIds : List Nat
  newDepIds : List Nat
deriving DecidableEq, Repr

/-- The state one watcher interacts with: its own fields, the subscriber
lists of every dep (`Dep.subs`, keyed by dep id), the owning component's
watcher list `vm._watchers` and its `_isBeingDestroyed` flag. -/
structure System where
  w : Watcher
  subs : Nat → List Nat
  vmWatchers : List Nat
  vmDestroyed : Bool

/-- `Dep.addSub` (src/unnamed/part_002, lines 336-338): `this.subs.push(sub)`
— an unconditional append of watcher `wid` to dep `d`'s subscriber list. -/
def addSub (sys : System) (d : Nat) (wid : Nat) : System :=
  { sys with subs := fun x => if x = d then sys.subs x ++ [wid] else sys.subs x }

/-- `Watcher.addDep` (src/unnamed/part_002, lines 159-169): skip ids already
collected this pass; otherwise record the dep in `newDepIds`/`newDeps`, and
subscribe (`dep.addSub(this)`) only if it was not a dependency of the
previous pass. -/
def addDep (wid : Nat) (d : Nat) (sys : System) : System :=
  if d ∈ sys.w.newDepIds then sys
  else
    let sys1 := { sys with w := { sys.w with
      newDepIds := sys.w.newDepIds ++ [d],
      newDeps := sys.w.newDeps ++ [d] } }
    if d ∈ sys.w.depIds then sys1 else addSub sys1 d wid

/-- Remove watcher `wid` from the subscriber list of every dep id in `L`,
in order (`dep.removeSub(this)` for each). -/
def removeSubsAll (wid : Nat) (L : List Nat) (sb : Nat → List Nat) : Nat → List Nat :=
  L.foldl (fun sb d => fun x => if x = d then removeFirst wid (sb x) else sb x) sb

/-- `Watcher.cleanupDeps` (src/unnamed/part_002, lines 174-194): walk the
previous pass's `deps` from the end, unsubscribing from every dep whose id
was not re-collected this pass; then swap: `depIds` becomes `newDepIds`
(cleared), `deps` becomes `newDeps` (emptied). -/
def cleanupDeps (wid : Nat) (sys : System) : System :=
  { sys with
    subs := removeSubsAll wid
      (sys.w.deps.reverse.filter (fun d => decide (d ∉ sys.w.newDepIds))) sys.subs,
    w := { sys.w with
      depIds := sys.w.newDepIds,
      newDepIds := [],
      deps := sys.w.newDeps,
      newDeps := [] } }

/-- The dependency-collection phase of one evaluation of `Watcher.get`:
while the watcher is the active target, every observed slot read calls
`dep.depend()` (src/unnamed/part_002, lines 344-348), which is `addDep`
with that dep's id; `reads` is the sequence of dep ids read, in order. -/
def addPhase (wid : Nat) (reads : List Nat) (sys : System) : System :=
  reads.foldl (fun s d => addDep wid d s) sys

/-- The dependency effect of one evaluation pass of `Watcher.get`
(src/unnamed/part_002, lines 122-154): collect the reads, then the
`finally` block runs `cleanupDeps`. -/
def runPass (wid : Nat) (reads : List Nat) (sys : System) : System :=
  cleanupDeps wid (addPhase wid reads sys)

/-- `Watcher.teardown` (src/unnamed/part_002, lines 291-312): if the watcher
is still active, remove it from `vm._watchers` (skipped when the vm is being
destroyed), unsubscribe from every collected dep (walking `deps` from the
end), and clear `active`. -/
def teardown (wid : Nat) (sys : System) : System :=
  if sys.w.active then
    { sys with
      vmWatchers := if sys.vmDestroyed then sys.vmWatchers
        else removeFirst wid sys.vmWatchers,
      subs := removeSubsAll wid sys.w.deps.reverse sys.subs,
      w := { sys.w with active := false } }
  else sys

/-- The outcome of `Watcher.run`: the updated watcher, whether `this.get()`
was called, whether the callback fired, and the errors reported through
`handleError`. -/
structure RunOut where
  w : Watcher
  evaluated : Bool
  fired : Bool
  handled : List Nat
deriving DecidableEq, Repr

/-- `Watcher.run` (src/unnamed/part_002, lines 228-266).  Errors are numeric
tokens; `gr` is the outcome of `this.get()` (which may rethrow a non-user
getter error, see `watcherGet`), `cbThrow` is what the reaction callback
would do if invoked.  If the watcher is inactive nothing happens; otherwise
the callback fires exactly when the new value is strictly unequal to the old
one, or is an object, or the watcher is deep; a user callback's error goes
to `handleError`, a non-user callback's error propagates.  The dependency
side effects of `this.get()` are modelled separately by `runPass`. -/
def run (gr : Except Nat JSVal) (cbThrow : Option Nat) (w : Watcher) :
    Except Nat RunOut :=
  if w.active then
    match gr with
    | Except.error e => Except.error e
    | Except.ok value =>
      if (!strictEq value w.value) || isObject value || w.deep then
        let w2 := { w with value := value }
        if w.user then
          match cbThrow with
          | some e => Except.ok ⟨w2, true, true, [e]⟩
          | none => Except.ok ⟨w2, true, true, []⟩
        else
          match cbThrow with
          | some e => Except.error e
          | none => Except.ok ⟨w2, true, true, []⟩
      else Except.ok ⟨w, true, false, []⟩
  else Except.ok ⟨w, false, false, []⟩

/-- The global active-computation pointer `Dep.target` together with the
nesting stack `targetStack` (src/unnamed/part_002, lines 375-377). -/
structure TargetState where
  target : Option Nat
  stack : List Nat
deriving DecidableEq, Repr

/-- `pushTarget` (src/unnamed/part_002, lines 385-388): the current target,
if any, is pushed onto the stack (list head = stack top), then the new
target is installed. -/
def pushTarget (t : Option Nat) (s : TargetState) : TargetState :=
  match s.target with
  | some cur => { target := t, stack := cur :: s.stack }
  | none => { s with target := t }

/-- `popTarget` (src/unnamed/part_002, lines 390-392): `Dep.target =
targetStack.pop()` — popping an empty JavaScript array yields `undefined`,
i.e. no target. -/
def popTarget (s : TargetState) : TargetState :=
  match s.stack with
  | [] => { target := none, stack := [] }
  | x :: xs => { target := some x, stack := xs }

/-- The states the target pointer can actually be in: initially
`Dep.target = null` with an empty stack, and the source then applies
`pushTarget(this)` from `Watcher.get`, `pushTarget()` with no argument —
i.e. pushing `undefined` — from `getData`
(src/src/core/instance/proxy.js, line 285, disabling dep collection while
a component's `data()` runs), and `popTarget`. -/
inductive TargetReachable : TargetState → Prop where
  | init : TargetReachable ⟨none, []⟩
  | push (t : Option Nat) (s : TargetState) :
      TargetReachable s → TargetReachable (pushTarget t s)
  | pop (s : TargetState) : TargetReachable s → TargetReachable (popTarget s)

/-- The outcome of `Watcher.get`: the returned value or the rethrown error,
the target state after the call, and the errors reported through
`handleError`. -/
structure GetOut where
  result : Except Nat JSVal
  tstate : TargetState
  handled : List Nat

/-- `Watcher.get` (src/unnamed/part_002, lines 122-154): `pushTarget(this)`,
run the getter (`gr` is its outcome), and in the `finally` block — executed
on the normal return, on the caught-user-error return and on the rethrow
path alike — `popTarget()`.  A throwing getter of a user watcher is passed
to `handleError` and `get` returns with `value` still `undefined`; for a
non-user watcher the error is rethrown.  The `finally` block's `traverse`
and `cleanupDeps` calls do not touch the target state; they are modelled by
`trav` and `runPass`. -/
def watcherGet (wid : Nat) (user : Bool) (gr : Except Nat JSVal)
    (ts : TargetState) : GetOut :=
  let ts2 := popTarget (pushTarget (some wid) ts)
  match gr with
  | Except.ok v => ⟨Except.ok v, ts2, []⟩
  | Except.error e =>
    if user then ⟨Except.ok JSVal.undef, ts2, [e]⟩
    else ⟨Except.error e, ts2, []⟩

/-- A deferred callback as the tick mechanism sees it: when invoked it makes
a sequence of `nextTick` registrations of further callbacks and then either
returns or throws.  `cid` tags the callback so invocations and reported
errors can be traced. -/
inductive Cb where
  | mk (cid : Nat) (calls : List Cb) (fails : Bool)

/-- The tag of a callback. -/
def Cb.cid : Cb → Nat
  | Cb.mk i _ _ => i

/-- The `nextTick` registrations a callback performs when invoked. -/
def Cb.calls : Cb → List Cb
  | Cb.mk _ c _ => c

/-- Whether the callback throws after performing its registrations. -/
def Cb.fails : Cb → Bool
  | Cb.mk _ _ f => f

/-- The module state of src/src/core/util/next-tick.js: the live
`callbacks` list and the `pending` flag, plus observation traces —
`scheduled` counts how many timer-function flushes have been scheduled,
`invoked` lists the tags of the callbacks run so far, `handled` the tags of
the errors reported through `handleError`. -/
structure TickState where
  callbacks : List Cb
  pending : Bool
  scheduled : Nat
  invoked : List Nat
  handled : List Nat

/-- `nextTick` (src/src/core/util/next-tick.js, lines 104-138): append the
wrapped callback to `callbacks`; if no flush is pending, set `pending` and
schedule exactly one flush via the timer function (micro- or macro-task —
which primitive is chosen is environment-dependent and not modelled; only
the count of scheduled flushes is). -/
def nextTick (cb : Cb) (s : TickState) : TickState :=
  let s1 := { s with callbacks := s.callbacks ++ [cb] }
  if s1.pending then s1
  else { s1 with pending := true, scheduled := s1.scheduled + 1 }

/-- A sequence of `nextTick` registrations, in order. -/
def ticks (cs : List Cb) (s : TickState) : TickState :=
  cs.foldl (fun st c => nextTick c st) s

/-- Invoking one copied callback during the drain: the wrapper built by
`nextTick` runs the user callback — which performs its own `nextTick`
registrations — inside `try/catch`, reporting a throw to `handleError`,
so invocation itself never throws. -/
def invokeCb (s : TickState) (cb : Cb) : TickState :=
  let s1 := ticks cb.calls { s with invoked := s.invoked ++ [cb.cid] }
  if cb.fails then { s1 with handled := s1.handled ++ [cb.cid] } else s1

/-- `flushCallbacks` (src/src/core/util/next-tick.js, lines 12-27): reset
`pending`, copy the live list, clear it, and only then invoke every copied
callback in order. -/
def flushCallbacks (s : TickState) : TickState :=
  let copies := s.callbacks
  (copies.foldl invokeCb { s with pending := false, callbacks := [] })

/-- A value as the traversal sees it: a primitive (not an array and not an
object, so skipped), or a reference into the heap. -/
inductive TVal where
  | prim
  | ref (r : Nat)
deriving DecidableEq, Repr

/-- One node of a value graph for the deep-traversal operation: whether it
is frozen, whether it is a virtual node, the id of the dep of its attached
observer (`__ob__.dep.id`) if it is instrumented, and the values of its own
fields (for arrays: its elements). -/
structure HNode where
  isFrozen : Bool
  isVNode : Bool
  obId : Option Nat
  children : List TVal
deriving Repr

/-- A finite object graph: index `r` of the list is the node `TVal.ref r`
points to.  Cycles are expressed by child references pointing back. -/
abbrev THeap := List HNode

/-- `_traverse` (src/src/core/observer/traverse.js, lines 19-61), with an
explicit recursion budget `fuel` standing for the call stack (each nested
`_traverse` call consumes one unit; `none` means the budget was exhausted,
so divergence of the source shows up as `none` for every budget).
Non-objects, frozen values and virtual nodes return at once; an
instrumented value whose dep id was already seen returns at once, otherwise
its id is added to `seen`; then every child is traversed (the source walks
indices and keys from the last to the first, hence `reverse`). -/
def trav (h : THeap) : Nat → TVal → List Nat → Option (List Nat)
  | 0, _, _ => none
  | n + 1, v, seen =>
    match v with
    | TVal.prim => some seen
    | TVal.ref r =>
      match h[r]? with
      | none => some seen
      | some node =>
        if node.isFrozen || node.isVNode then some seen
        else
          match node.obId with
          | some d =>
            if d ∈ seen then some seen
            else node.children.reverse.foldl
              (fun acc c => acc.bind (trav h n c)) (some (d :: seen))
          | none => node.children.reverse.foldl
              (fun acc c => acc.bind (trav h n c)) (some seen)

/-- The child-list part of `_traverse`: traverse each value in turn,
threading the seen set. -/
def travList (h : THeap) (n : Nat) (cs : List TVal) (seen : List Nat) :
    Option (List Nat) :=
  cs.foldl (fun acc c => acc.bind (trav h n c)) (some seen)

/-- `traverse` (src/src/core/observer/traverse.js, lines 14-17): run
`_traverse` with the module-level seen set, then clear it; the result is
the content of `seenObjects` after the call — the empty set whenever the
traversal finished. -/
def traverse (h : THeap) (fuel : Nat) (v : TVal) : Option (List Nat) :=
  match trav h fuel v [] with
  | none => none
  | some _ => some []

/-- The source `_traverse` terminates on this input: some finite call-stack
budget suffices. -/
def TraverseTerminates (h : THeap) (v : TVal) : Prop :=
  ∃ n res, trav h n v [] = some res

/-- The characters `parsePath` accepts: `\w` (ASCII letters, digits and
underscore), the dot and the dollar sign (the complement of the bail
regexp `[^\w.$]` of src/src/core/util/next-tick.js, line 168). -/
def allowedChar (c : Char) : Bool :=
  c.isAlpha || c.isDigit || c = '_' || c = '.' || c = '$'

/-- `bailRE.test(path)`: some character of the path is outside `\w`, `.`,
`$`. -/
def bailTest (p : String) : Bool :=
  p.data.any (fun c => !allowedChar c)

/-- The path separator. -/
def sepDot : String := "."

/-- `parsePath` (src/src/core/util/next-tick.js, lines 169-181): bail out
(returning `undefined`, here `none`) when the path contains a disallowed
character; otherwise split on dots.  The source returns the closure walking
those segments — its behaviour on a value is `pathEval`. -/
def parsePath (p : String) : Option (List String) :=
  if bailTest p then none else some (p.splitOn sepDot)

/-- A heap of plain objects for the path getter: field lists keyed by
property name.  Property access on a primitive yields `undefined` (the
falsy ones are never dereferenced — the getter checks first). -/
def getProp (h : Nat → List (String × JSVal)) (v : JSVal) (k : String) : JSVal :=
  match v with
  | JSVal.obj r =>
    match (h r).find? (fun p => p.1 == k) with
    | some p => p.2
    | none => JSVal.undef
  | _ => JSVal.undef

/-- The closure returned by `parsePath`: for each segment, if the value so
far is falsy, return (`undefined`); otherwise continue with the property's
value. -/
def pathEval (h : Nat → List (String × JSVal)) : List String → JSVal → JSVal
  | [], v => v
  | s :: rest, v =>
    if falsy v then JSVal.undef else pathEval h rest (getProp h v s)

/-- The properties the path getter actually dereferences — the observable
reads it performs, which is what dependency registration follows. -/
def pathReads (h : Nat → List (String × JSVal)) : List String → JSVal → List String
  | [], _ => []
  | s :: rest, v =>
    if falsy v then [] else s :: pathReads h rest (getProp h v s)

/-- The getter the `Watcher` constructor installs for a string expression
(src/unnamed/part_002, lines 94-110): the `parsePath` closure, or `noop`
when parsing bailed — and `noop` evaluates to `undefined`. -/
def ctorEval (h : Nat → List (String × JSVal)) (p : String) (root : JSVal) : JSVal :=
  match parsePath p with
  | some segs => pathEval h segs root
  | none => JSVal.undef

/-- The reads performed by the getter the constructor installs: the path's
dereferences, or none at all for `noop`. -/
def ctorReads (h : Nat → List (String × JSVal)) (p : String) (root : JSVal) :
    List String :=
  match parsePath p with
  | some segs => pathReads h segs root
  | none => []

/-! ## Lemmas about the target stack -/

/-- `Watcher.get` applies `pushTarget` then (in `finally`) `popTarget` to the
target state on every branch. -/
theorem watcherGet_tstate (wid : Nat) (user : Bool) (gr : Except Nat JSVal)
    (ts : TargetState) :
    (watcherGet wid user gr ts).tstate = popTarget (pushTarget (some wid) ts) := by
  cases gr with
  | ok v => rfl
  | error e => cases user <;> rfl

/-! ## Claim C3 -/

/-- C3 counterexample: `Watcher.get` does not restore `Dep.target` in every
state of the pointer.  The state `⟨none, [5]⟩` — no target over a nonempty
nesting stack — is reachable in the source: watcher `5` evaluates
(`pushTarget(this)`), then `getData` calls `pushTarget()` with no argument
(src/src/core/instance/proxy.js, line 285), which pushes the truthy
current target and installs `undefined`.  A `get` in that state pushes
nothing (`pushTarget` only pushes a truthy current target), so the
`finally` `popTarget` pops watcher `5` into `Dep.target` instead of
restoring `none`. -/
theorem watcher_get_target_counterexample :
    TargetReachable ⟨none, [5]⟩ ∧
    (watcherGet 1 false (Except.ok JSVal.undef) ⟨none, [5]⟩).tstate.target
      ≠ (⟨none, [5]⟩ : TargetState).target := by
  constructor
  · have h1 : TargetReachable (pushTarget (some 5) ⟨none, []⟩) :=
      TargetReachable.push (some 5) ⟨none, []⟩ TargetReachable.init
    have h2 : TargetReachable (pushTarget none (pushTarget (some 5) ⟨none, []⟩)) :=
      TargetReachable.push none (pushTarget (some 5) ⟨none, []⟩) h1
    exact h2
  · decide

/-- C3 as amended: `Watcher.get` restores `Dep.target` on every exit path —
whether the evaluator returns normally or throws (`pushTarget` on entry,
`popTarget` in the `finally` block) — in every state of the pointer in
which an empty target implies an empty nesting stack; in particular
whenever a computation is currently active, or at the top level.  A null
target over a nonempty stack, reachable through `getData`'s no-argument
`pushTarget()`, is the one kind of state `get` does not restore. -/
theorem watcher_get_restores_target (wid : Nat) (user : Bool)
    (gr : Except Nat JSVal) (ts : TargetState)
    (hinv : ts.target = none → ts.stack = []) :
    (watcherGet wid user gr ts).tstate.target = ts.target := by
  rw [watcherGet_tstate]
  cases hcur : ts.target with
  | some cur => simp [pushTarget, popTarget, hcur]
  | none =>
    have hstack := hinv hcur
    simp [pushTarget, popTarget, hcur, hstack]

/-- Witness for the amended C3 at a concrete input: from the initial state,
a get whose evaluator throws still leaves no active target behind. -/
theorem watcher_get_restores_target_witness :
    (watcherGet 1 true (Except.error 5) ⟨none, []⟩).tstate.target
      = (⟨none, []⟩ : TargetState).target :=
  watcher_get_restores_target 1 true (Except.error 5) ⟨none, []⟩ (fun _ => rfl)

/-! ## Claim C8 -/

/-- C8: when the evaluator throws during `Watcher.get`, a user-defined
watcher reports the error to the shared sink and `get` returns without
rethrowing, yielding `undefined` as the (non-)updated value; any other
watcher lets the error propagate to the caller. -/
theorem watcher_get_error_policy (wid e : Nat) (ts : TargetState) :
    ((watcherGet wid true (Except.error e) ts).result = Except.ok JSVal.undef ∧
      (watcherGet wid true (Except.error e) ts).handled = [e]) ∧
    ((watcherGet wid false (Except.error e) ts).result = Except.error e ∧
      (watcherGet wid false (Except.error e) ts).handled = []) :=
  ⟨⟨rfl, rfl⟩, ⟨rfl, rfl⟩⟩

/-! ## Claim C5 -/

/-- C5: for an active watcher whose re-evaluation returned `v` normally,
`run` fires the completion callback exactly when `v` is strictly unequal to
the stored value, or `v` is an object, or the watcher is deep; when none of
these hold the watcher — its stored value included — is left unchanged. -/
theorem run_fires_iff (v : JSVal) (w : Watcher) (hact : w.active = true) :
    ∃ out, run (Except.ok v) none w = Except.ok out ∧
      out.fired = ((!strictEq v w.value) || isObject v || w.deep) ∧
      (out.fired = false → out.w = w) := by
  by_cases hc : ((!strictEq v w.value) || isObject v || w.deep) = true
  · refine ⟨⟨{ w with value := v }, true, true, []⟩, ?_, ?_, ?_⟩
    · simp [run, hact, hc]
    · simp [hc]
    · intro hf; cases hf
  · have hc2 : ((!strictEq v w.value) || isObject v || w.deep) = false := by
      revert hc; cases ((!strictEq v w.value) || isObject v || w.deep) <;> simp
    refine ⟨⟨w, true, false, []⟩, ?_, ?_, ?_⟩
    · simp [run, hact, hc2]
    · simp [hc2]
    · intro _; rfl

/-- A concrete unchanged-primitive re-evaluation: an active, non-deep
watcher re-computing the same number. -/
def wNum : Watcher := ⟨true, false, false, JSVal.num 3, [], [], [], []⟩

/-- Witness for C5: re-evaluating `wNum` to the same primitive `3` does not
fire the callback and leaves the watcher unchanged. -/
theorem run_fires_iff_witness :
    ∃ out, run (Except.ok (JSVal.num 3)) none wNum = Except.ok out ∧
      out.fired = ((!strictEq (JSVal.num 3) wNum.value) || isObject (JSVal.num 3)
        || wNum.deep) ∧
      (out.fired = false → out.w = wNum) :=
  run_fires_iff (JSVal.num 3) wNum rfl

/-! ## Lemmas about removal from subscriber lists -/

/-- Removing the only occurrence removes the element. -/
theorem removeFirst_not_mem (x : Nat) (l : List Nat)
    (h : List.count x l ≤ 1) : x ∉ removeFirst x l := by
  induction l with
  | nil => intro hx; cases hx
  | cons y ys ih =>
    by_cases hy : y = x
    · subst hy
      rw [List.count_cons_self] at h
      have hz : List.count y ys = 0 := by omega
      simp [removeFirst, List.count_eq_zero.mp hz]
    · rw [List.count_cons_of_ne (fun hxy => hy hxy.symm)] at h
      simp only [removeFirst, if_neg hy, List.mem_cons]
      intro hx
      rcases hx with hx | hx
      · exact hy hx.symm
      · exact ih h hx

/-- Removal does not increase the count of the removed element. -/
theorem count_removeFirst_le (wid x : Nat) (l : List Nat) :
    List.count wid (removeFirst x l) ≤ List.count wid l := by
  induction l with
  | nil => exact le_refl _
  | cons y ys ih =>
    by_cases hy : y = x
    · simp only [removeFirst, if_pos hy, List.count_cons]
      omega
    · simp only [removeFirst, if_neg hy, List.count_cons]
      omega

/-- Unsubscribing from a list of deps processes them one at a time. -/
theorem removeSubsAll_cons (wid d : Nat) (L : List Nat) (sb : Nat → List Nat) :
    removeSubsAll wid (d :: L) sb =
      removeSubsAll wid L (fun x => if x = d then removeFirst wid (sb x) else sb x) :=
  rfl

/-- Keys outside the removal list keep their subscriber list. -/
theorem removeSubsAll_not_mem_key (wid : Nat) (L : List Nat)
    (sb : Nat → List Nat) (x : Nat) (hx : x ∉ L) :
    removeSubsAll wid L sb x = sb x := by
  induction L generalizing sb with
  | nil => rfl
  | cons d L ih =>
    have hxd : x ≠ d := fun h => hx (h ▸ List.mem_cons_self d L)
    have hxL : x ∉ L := fun h => hx (List.mem_cons_of_mem d h)
    rw [removeSubsAll_cons, ih _ hxL]
    simp [hxd]

/-- For a duplicate-free removal list, each listed dep's subscriber list
undergoes exactly one `removeSub`. -/
theorem removeSubsAll_spec_nodup (wid : Nat) (L : List Nat)
    (sb : Nat → List Nat) (x : Nat) (h : L.Nodup) :
    removeSubsAll wid L sb x =
      if x ∈ L then removeFirst wid (sb x) else sb x := by
  induction L generalizing sb with
  | nil => simp [removeSubsAll]
  | cons d L ih =>
    have hd : d ∉ L := (List.nodup_cons.mp h).1
    have hL : L.Nodup := (List.nodup_cons.mp h).2
    rw [removeSubsAll_cons, ih _ hL]
    by_cases hx : x ∈ L
    · have hxd : x ≠ d := fun hxe => hd (hxe ▸ hx)
      simp [hx, hxd]
    · by_cases hxd : x = d
      · subst hxd; simp [hx]
      · simp [hx, hxd]

/-- Removal passes never increase any subscriber count. -/
theorem removeSubsAll_count_le (wid : Nat) (L : List Nat)
    (sb : Nat → List Nat) (x : Nat) :
    List.count wid (removeSubsAll wid L sb x) ≤ List.count wid (sb x) := by
  induction L generalizing sb with
  | nil => exact le_refl _
  | cons d L ih =>
    rw [removeSubsAll_cons]
    refine le_trans (ih _) ?_
    by_cases hxd : x = d
    · simp only [if_pos hxd]
      exact count_removeFirst_le wid wid (sb x)
    · simp [hxd]

/-- A dep listed in the removal pass loses its (at most single)
subscription of the removed watcher, duplicates in the list or not. -/
theorem removeSubsAll_removes (wid : Nat) (L : List Nat)
    (sb : Nat → List Nat) (x : Nat) (hx : x ∈ L)
    (hc : List.count wid (sb x) ≤ 1) :
    wid ∉ removeSubsAll wid L sb x := by
  induction L generalizing sb with
  | nil => cases hx
  | cons d L ih =>
    rw [removeSubsAll_cons]
    by_cases hxL : x ∈ L
    · refine ih _ hxL ?_
      by_cases hxd : x = d
      · simp only [if_pos hxd]
        exact le_trans (count_removeFirst_le wid wid (sb x)) hc
      · simpa [hxd] using hc
    · have hxd : x = d := by
        rcases List.mem_cons.mp hx with h | h
        · exact h
        · exact absurd h hxL
      rw [removeSubsAll_not_mem_key _ _ _ _ hxL]
      simp only [if_pos hxd]
      exact removeFirst_not_mem wid (sb x) hc

/-! ## Claim C4 -/

/-- C4: `teardown` is idempotent, always leaves the active flag cleared,
removes the watcher from the subscriber list of every dep it had collected
(when it was still active and was subscribed at most once per dep, as the
source maintains), and a subsequent `run` — for any scheduled evaluation
and callback whatsoever, even one already enqueued — performs no
evaluation, fires no callback and changes nothing. -/
theorem teardown_silences (wid : Nat) (sys : System)
    (hact : sys.w.active = true)
    (hcount : ∀ d ∈ sys.w.deps, List.count wid (sys.subs d) ≤ 1) :
    teardown wid (teardown wid sys) = teardown wid sys ∧
    (teardown wid sys).w.active = false ∧
    (∀ d ∈ sys.w.deps, wid ∉ (teardown wid sys).subs d) ∧
    (∀ gr cbThrow, run gr cbThrow (teardown wid sys).w =
      Except.ok ⟨(teardown wid sys).w, false, false, []⟩) := by
  have hdown : (teardown wid sys).w.active = false := by
    simp [teardown, hact]
  refine ⟨?_, hdown, ?_, ?_⟩
  · rw [teardown.eq_def]
    rw [if_neg (by simp [hdown])]
  · intro d hd
    have hsubs : (teardown wid sys).subs =
        removeSubsAll wid sys.w.deps.reverse sys.subs := by
      simp [teardown, hact]
    rw [hsubs]
    exact removeSubsAll_removes wid _ sys.subs d
      (List.mem_reverse.mpr hd) (hcount d hd)
  · intro gr cbThrow
    rw [run.eq_def]
    simp [hdown]

/-- A concrete system to exercise teardown: active watcher `7` subscribed
to deps `1` and `2`. -/
def sysT4 : System :=
  ⟨⟨true, false, false, JSVal.undef, [1, 2], [], [1, 2], []⟩,
    fun x => if x = 1 then [7] else if x = 2 then [7, 9] else [], [7], false⟩

/-- Witness for C4: tearing down watcher `7` in `sysT4` is idempotent,
deactivates it, unsubscribes it from dep `2`, and muzzles a `run` that was
already scheduled with a changed value and a throwing callback. -/
theorem teardown_silences_witness :
    teardown 7 (teardown 7 sysT4) = teardown 7 sysT4 ∧
    (teardown 7 sysT4).w.active = false ∧
    7 ∉ (teardown 7 sysT4).subs 2 ∧
    run (Except.ok (JSVal.num 1)) (some 3) (teardown 7 sysT4).w =
      Except.ok ⟨(teardown 7 sysT4).w, false, false, []⟩ :=
  have h := teardown_silences 7 sysT4 rfl (by decide)
  ⟨h.1, h.2.1, h.2.2.1 2 (by decide), h.2.2.2 (Except.ok (JSVal.num 1)) (some 3)⟩

/-! ## Lemmas about dependency collection -/

/-- The ids a pass collects, in first-read order, starting from the already
collected set `cur` — the contents `addDep` appends to `newDepIds`. -/
def collectNew (cur : List Nat) : List Nat → List Nat
  | [] => []
  | d :: ds => if d ∈ cur then collectNew cur ds
      else d :: collectNew (cur ++ [d]) ds

/-- Ids collected during the pass were not collected before the pass. -/
theorem collectNew_not_mem_cur (cur ds : List Nat) (y : Nat)
    (hy : y ∈ collectNew cur ds) : y ∉ cur := by
  induction ds generalizing cur with
  | nil => cases hy
  | cons d ds ih =>
    by_cases hd : d ∈ cur
    · rw [collectNew, if_pos hd] at hy
      exact ih cur hy
    · rw [collectNew, if_neg hd] at hy
      rcases List.mem_cons.mp hy with h | h
      · exact h ▸ hd
      · intro hcur
        exact ih (cur ++ [d]) h (List.mem_append_left _ hcur)

/-- An id is collected exactly when it is read during the pass and was not
already collected. -/
theorem collectNew_mem_iff (cur ds : List Nat) (y : Nat) :
    y ∈ collectNew cur ds ↔ y ∈ ds ∧ y ∉ cur := by
  induction ds generalizing cur with
  | nil => simp [collectNew]
  | cons d ds ih =>
    by_cases hd : d ∈ cur
    · rw [collectNew, if_pos hd, ih]
      constructor
      · rintro ⟨h1, h2⟩
        exact ⟨List.mem_cons_of_mem d h1, h2⟩
      · rintro ⟨h1, h2⟩
        rcases List.mem_cons.mp h1 with h | h
        · exact absurd (h ▸ hd) h2
        · exact ⟨h, h2⟩
    · rw [collectNew, if_neg hd]
      constructor
      · intro hy
        rcases List.mem_cons.mp hy with h | h
        · subst h; exact ⟨List.mem_cons_self _ _, hd⟩
        · rcases (ih (cur ++ [d])).mp h with ⟨h1, h2⟩
          refine ⟨List.mem_cons_of_mem d h1, fun hc => h2 ?_⟩
          exact List.mem_append_left _ hc
      · rintro ⟨h1, h2⟩
        rcases List.mem_cons.mp h1 with h | h
        · exact h ▸ List.mem_cons_self _ _
        · by_cases hyd : y = d
          · exact hyd ▸ List.mem_cons_self _ _
          · refine List.mem_cons_of_mem d ((ih (cur ++ [d])).mpr ⟨h, ?_⟩)
            simp [hyd, h2]

/-- The collected ids contain no duplicate. -/
theorem collectNew_nodup (cur ds : List Nat) : (collectNew cur ds).Nodup := by
  induction ds generalizing cur with
  | nil => exact List.nodup_nil
  | cons d ds ih =>
    by_cases hd : d ∈ cur
    · rw [collectNew, if_pos hd]; exact ih cur
    · rw [collectNew, if_neg hd]
      refine List.nodup_cons.mpr ⟨?_, ih (cur ++ [d])⟩
      intro hmem
      exact collectNew_not_mem_cur _ _ _ hmem (List.mem_append_right _ (List.mem_cons_self d []))

/-- `addPhase` step by step. -/
theorem addPhase_cons (wid d : Nat) (ds : List Nat) (sys : System) :
    addPhase wid (d :: ds) sys = addPhase wid ds (addDep wid d sys) :=
  rfl

/-- The watcher fields after the collection phase: `deps` and `depIds` are
untouched, `newDepIds` and `newDeps` both grow by exactly the newly
collected ids, in read order. -/
theorem addPhase_w (wid : Nat) (reads : List Nat) (sys : System) :
    (addPhase wid reads sys).w.deps = sys.w.deps ∧
    (addPhase wid reads sys).w.depIds = sys.w.depIds ∧
    (addPhase wid reads sys).w.newDepIds
      = sys.w.newDepIds ++ collectNew sys.w.newDepIds reads ∧
    (addPhase wid reads sys).w.newDeps
      = sys.w.newDeps ++ collectNew sys.w.newDepIds reads := by
  induction reads generalizing sys with
  | nil => simp [addPhase, collectNew]
  | cons d ds ih =>
    rw [addPhase_cons]
    by_cases hd : d ∈ sys.w.newDepIds
    · have hstep : addDep wid d sys = sys := by rw [addDep, if_pos hd]
      rw [hstep, collectNew, if_pos hd]
      exact ih sys
    · have hw : (addDep wid d sys).w = { sys.w with
          newDepIds := sys.w.newDepIds ++ [d],
          newDeps := sys.w.newDeps ++ [d] } := by
        rw [addDep, if_neg hd]
        by_cases hdep : d ∈ sys.w.depIds
        · rw [if_pos hdep]
        · rw [if_neg hdep]; rfl
      obtain ⟨i1, i2, i3, i4⟩ := ih (addDep wid d sys)
      rw [collectNew, if_neg hd]
      refine ⟨by rw [i1, hw], by rw [i2, hw], ?_, ?_⟩
      · rw [i3, hw]
        simp
      · rw [i4, hw]
        simp

/-- The subscriber lists after the collection phase: a dep gains this
watcher exactly when the pass collects it and it was not a dependency of
the previous pass; every other dep's list is untouched. -/
theorem addPhase_subs (wid : Nat) (reads : List Nat) (sys : System) (x : Nat) :
    (addPhase wid reads sys).subs x =
      if x ∈ collectNew sys.w.newDepIds reads ∧ x ∉ sys.w.depIds
      then sys.subs x ++ [wid] else sys.subs x := by
  induction reads generalizing sys with
  | nil => simp [addPhase, collectNew]
  | cons d ds ih =>
    rw [addPhase_cons]
    by_cases hd : d ∈ sys.w.newDepIds
    · have hstep : addDep wid d sys = sys := by rw [addDep, if_pos hd]
      rw [hstep, collectNew, if_pos hd]
      exact ih sys
    · have hw : (addDep wid d sys).w = { sys.w with
          newDepIds := sys.w.newDepIds ++ [d],
          newDeps := sys.w.newDeps ++ [d] } := by
        rw [addDep, if_neg hd]
        by_cases hdep : d ∈ sys.w.depIds
        · rw [if_pos hdep]
        · rw [if_neg hdep]; rfl
      have hsub : (addDep wid d sys).subs = fun y =>
          if d ∉ sys.w.depIds ∧ y = d then sys.subs y ++ [wid]
          else sys.subs y := by
        rw [addDep, if_neg hd]
        by_cases hdep : d ∈ sys.w.depIds
        · rw [if_pos hdep]
          funext y
          simp [hdep]
        · rw [if_neg hdep]
          funext y
          by_cases hyd : y = d
          · simp [addSub, hyd, hdep]
          · simp [addSub, hyd, hdep]
      rw [ih (addDep wid d sys), hw, hsub]
      rw [collectNew, if_neg hd]
      simp only [List.mem_cons]
      by_cases hxc : x ∈ collectNew (sys.w.newDepIds ++ [d]) ds
      · have hxd : x ≠ d := by
          intro hxe
          subst hxe
          exact collectNew_not_mem_cur _ _ _ hxc
            (List.mem_append_right _ (List.mem_cons_self x []))
        by_cases hdep2 : x ∈ sys.w.depIds
        · simp [hxc, hxd, hdep2]
        · simp [hxc, hxd, hdep2]
      · by_cases hxd : x = d
        · subst hxd
          by_cases hdep2 : x ∈ sys.w.depIds
          · simp [hxc, hdep2]
          · simp [hxc, hdep2]
        · simp [hxc, hxd]

/-! ## Claim C1 -/

/-- C1: after one evaluation pass, a watcher's dependency set (`deps` and
`depIds` alike) is exactly the set of deps whose `depend()` ran during the
pass — each read dep recorded once, in first-read order, with no
duplicates — and the watcher is removed from the subscriber list of every
previous-pass dep that was not read again.  Hypotheses: the pass starts
with empty pass-local sets and the watcher sits at most once in any
subscriber list it still occupies — invariants the source maintains
between passes. -/
theorem evaluation_resubscribes_exactly (wid : Nat) (reads : List Nat)
    (sys : System)
    (h1 : sys.w.newDeps = []) (h2 : sys.w.newDepIds = [])
    (h5 : ∀ d ∈ sys.w.deps, List.count wid (sys.subs d) ≤ 1) :
    (∀ d, d ∈ (runPass wid reads sys).w.depIds ↔ d ∈ reads) ∧
    (runPass wid reads sys).w.deps = (runPass wid reads sys).w.depIds ∧
    (runPass wid reads sys).w.deps.Nodup ∧
    (∀ d ∈ sys.w.deps, d ∉ reads → wid ∉ (runPass wid reads sys).subs d) := by
  obtain ⟨a1, a2, a3, a4⟩ := addPhase_w wid reads sys
  have a3' : (addPhase wid reads sys).w.newDepIds = collectNew [] reads := by
    rw [a3, h2]; simp
  have a4' : (addPhase wid reads sys).w.newDeps
      = sys.w.newDeps ++ collectNew [] reads := by
    rw [a4, h2]
  have hdepIds : (runPass wid reads sys).w.depIds = collectNew [] reads := by
    rw [runPass, cleanupDeps]
    exact a3'
  have hdeps : (runPass wid reads sys).w.deps = collectNew [] reads := by
    rw [runPass, cleanupDeps]
    simp only
    rw [a4', h1]
    simp
  refine ⟨?_, ?_, ?_, ?_⟩
  · intro d
    rw [hdepIds, collectNew_mem_iff]
    simp
  · rw [hdeps, hdepIds]
  · rw [hdeps]
    exact collectNew_nodup [] reads
  · intro d hd hdreads
    have hdnc : d ∉ collectNew [] reads := by
      rw [collectNew_mem_iff]
      exact fun hc => hdreads hc.1
    have hsubs : (runPass wid reads sys).subs =
        removeSubsAll wid
          ((addPhase wid reads sys).w.deps.reverse.filter
            (fun y => decide (y ∉ (addPhase wid reads sys).w.newDepIds)))
          (addPhase wid reads sys).subs := by
      rw [runPass, cleanupDeps]
    rw [hsubs]
    have hdmem : d ∈ (addPhase wid reads sys).w.deps.reverse.filter
        (fun y => decide (y ∉ (addPhase wid reads sys).w.newDepIds)) := by
      rw [List.mem_filter]
      refine ⟨?_, ?_⟩
      · rw [a1, List.mem_reverse]; exact hd
      · rw [a3']
        simpa using hdnc
    refine removeSubsAll_removes wid _ _ d hdmem ?_
    rw [addPhase_subs]
    rw [h2]
    have : ¬ (d ∈ collectNew [] reads ∧ d ∉ sys.w.depIds) := fun hc => hdnc hc.1
    rw [if_neg this]
    exact h5 d hd

/-- A system at the start of a pass: watcher `7` previously collected deps
`1` and `2` and is subscribed to both. -/
def sysW1 : System :=
  ⟨⟨true, false, false, JSVal.undef, [1, 2], [], [1, 2], []⟩,
    fun x => if x = 1 then [7] else if x = 2 then [7] else [], [], false⟩

/-- Witness for C1: a pass of watcher `7` that reads deps `2` then `3`
(and also re-reads `2`) ends with dependency set `{2, 3}` and is
unsubscribed from the no-longer-read dep `1`. -/
theorem evaluation_resubscribes_exactly_witness :
    ((2 ∈ (runPass 7 [2, 3, 2] sysW1).w.depIds ↔ 2 ∈ [2, 3, 2]) ∧
      (1 ∈ (runPass 7 [2, 3, 2] sysW1).w.depIds ↔ 1 ∈ [2, 3, 2])) ∧
    (runPass 7 [2, 3, 2] sysW1).w.deps = (runPass 7 [2, 3, 2] sysW1).w.depIds ∧
    (runPass 7 [2, 3, 2] sysW1).w.deps.Nodup ∧
    7 ∉ (runPass 7 [2, 3, 2] sysW1).subs 1 :=
  have h := evaluation_resubscribes_exactly 7 [2, 3, 2] sysW1 rfl rfl (by decide)
  ⟨⟨h.1 2, h.1 1⟩, h.2.1, h.2.2.1, h.2.2.2 1 (by decide) (by decide)⟩

/-! ## Claim C2 -/

/-- A dep (id `0`) that already lists watcher `7` as a subscriber. -/
def sysDup : System :=
  ⟨⟨true, false, false, JSVal.undef, [], [], [], []⟩,
    fun x => if x = 0 then [7] else [], [], false⟩

/-- C2 counterexample: `Dep.addSub` on an already-present subscriber is not
a no-op — it appends a second copy, so `subs` holds watcher `7` twice. -/
theorem addSub_duplicate_counterexample :
    7 ∈ sysDup.subs 0 ∧
    (addSub sysDup 0 7).subs 0 ≠ sysDup.subs 0 ∧
    List.count 7 ((addSub sysDup 0 7).subs 0) = 2 :=
  ⟨by decide, by decide, by decide⟩

/-- C2 as amended: `Dep.addSub` itself appends unconditionally; it is
`Watcher.addDep` that prevents duplicates, by subscribing only deps that
are in neither the pass-local id set nor the previous pass's id set — so
across any evaluation pass (any read sequence, with `cleanupDeps` only
ever removing) a watcher subscribed at most once per dep stays subscribed
at most once per dep. -/
theorem addDep_maintains_no_duplicates (wid : Nat) (reads : List Nat)
    (sys : System)
    (h5 : ∀ d, List.count wid (sys.subs d) ≤ 1)
    (h6 : ∀ d, d ∉ sys.w.depIds → wid ∉ sys.subs d) :
    ∀ d, List.count wid ((runPass wid reads sys).subs d) ≤ 1 := by
  intro d
  have hsubs : (runPass wid reads sys).subs =
      removeSubsAll wid
        ((addPhase wid reads sys).w.deps.reverse.filter
          (fun y => decide (y ∉ (addPhase wid reads sys).w.newDepIds)))
        (addPhase wid reads sys).subs := by
    rw [runPass, cleanupDeps]
  rw [hsubs]
  refine le_trans (removeSubsAll_count_le wid _ _ d) ?_
  rw [addPhase_subs]
  by_cases hc : d ∈ collectNew sys.w.newDepIds reads ∧ d ∉ sys.w.depIds
  · rw [if_pos hc]
    rw [List.count_append]
    have hz : List.count wid (sys.subs d) = 0 :=
      List.count_eq_zero.mpr (h6 d hc.2)
    rw [hz]
    simp
  · rw [if_neg hc]
    exact h5 d

/-- A watcher subscribed once to dep `1`, about to re-read `1` and newly
read `2` (twice). -/
def sysW2 : System :=
  ⟨⟨true, false, false, JSVal.undef, [1], [], [1], []⟩,
    fun x => if x = 1 then [7] else [], [], false⟩

/-- Witness for the amended C2: after the pass reading `1, 2, 1`, dep `2`
(and every other dep) still lists watcher `7` at most once. -/
theorem addDep_maintains_no_duplicates_witness :
    List.count 7 ((runPass 7 [1, 2, 1] sysW2).subs 2) ≤ 1 :=
  addDep_maintains_no_duplicates 7 [1, 2, 1] sysW2
    (by
      intro d
      by_cases h : d = 1
      · simp [sysW2, h]
      · simp [sysW2, h])
    (by
      intro d hd
      have hne : d ≠ 1 := by simpa [sysW2] using hd
      simp [sysW2, hne]) 2

/-! ## Lemmas about the tick mechanism -/

/-- `nextTick` while a flush is pending: the callback is appended and
nothing else changes — no second flush is scheduled. -/
theorem nextTick_pending (cb : Cb) (s : TickState) (h : s.pending = true) :
    nextTick cb s = { s with callbacks := s.callbacks ++ [cb] } := by
  rw [nextTick]
  simp [h]

/-- `nextTick` while idle: the callback is appended, the pending flag set,
and exactly one flush scheduled. -/
theorem nextTick_idle (cb : Cb) (s : TickState) (h : s.pending = false) :
    nextTick cb s = { s with
      callbacks := s.callbacks ++ [cb],
      pending := true,
      scheduled := s.scheduled + 1 } := by
  rw [nextTick]
  simp [h]

/-- Registering a sequence of callbacks: all are appended in order, the
pending flag ends up set exactly when it was already set or the sequence
was nonempty, and at most one flush is newly scheduled — one when the
state was idle and the sequence nonempty, none otherwise. -/
theorem ticks_spec (cs : List Cb) (s : TickState) :
    (ticks cs s).callbacks = s.callbacks ++ cs ∧
    (ticks cs s).pending = (s.pending || !cs.isEmpty) ∧
    (ticks cs s).scheduled = s.scheduled +
      (if !s.pending && !cs.isEmpty then 1 else 0) ∧
    (ticks cs s).invoked = s.invoked ∧
    (ticks cs s).handled = s.handled := by
  induction cs generalizing s with
  | nil => simp [ticks]
  | cons c cs ih =>
    have hstep : ticks (c :: cs) s = ticks cs (nextTick c s) := rfl
    cases hp : s.pending with
    | true =>
      rw [hstep, nextTick_pending c s hp]
      obtain ⟨i1, i2, i3, i4, i5⟩ := ih { s with callbacks := s.callbacks ++ [c] }
      refine ⟨?_, ?_, ?_, i4, i5⟩
      · rw [i1]; simp
      · rw [i2]; simp [hp]
      · rw [i3]; simp [hp]
    | false =>
      rw [hstep, nextTick_idle c s hp]
      obtain ⟨i1, i2, i3, i4, i5⟩ := ih { s with
        callbacks := s.callbacks ++ [c],
        pending := true,
        scheduled := s.scheduled + 1 }
      refine ⟨?_, ?_, ?_, i4, i5⟩
      · rw [i1]; simp
      · rw [i2]; simp [hp]
      · rw [i3]; simp [hp]

/-- Invoking one copied callback: its registrations are appended to the
live list, it is recorded as invoked, its failure (if any) is reported,
and it schedules at most one flush — exactly one when the state was idle
and it registered something. -/
theorem invokeCb_spec (s : TickState) (cb : Cb) :
    (invokeCb s cb).callbacks = s.callbacks ++ cb.calls ∧
    (invokeCb s cb).pending = (s.pending || !cb.calls.isEmpty) ∧
    (invokeCb s cb).scheduled = s.scheduled +
      (if !s.pending && !cb.calls.isEmpty then 1 else 0) ∧
    (invokeCb s cb).invoked = s.invoked ++ [cb.cid] ∧
    (invokeCb s cb).handled = s.handled ++
      (if cb.fails then [cb.cid] else []) := by
  obtain ⟨t1, t2, t3, t4, t5⟩ :=
    ticks_spec cb.calls { s with invoked := s.invoked ++ [cb.cid] }
  cases hf : cb.fails with
  | true =>
    have hstep : invokeCb s cb =
        { ticks cb.calls { s with invoked := s.invoked ++ [cb.cid] } with
          handled := (ticks cb.calls
            { s with invoked := s.invoked ++ [cb.cid] }).handled ++ [cb.cid] } := by
      rw [invokeCb]
      simp [hf]
    rw [hstep]
    refine ⟨t1, t2, t3, t4, ?_⟩
    rw [t5]
    simp
  | false =>
    have hstep : invokeCb s cb =
        ticks cb.calls { s with invoked := s.invoked ++ [cb.cid] } := by
      rw [invokeCb]
      simp [hf]
    rw [hstep]
    refine ⟨t1, t2, t3, t4, ?_⟩
    rw [t5]
    simp

/-- Emptiness of an appended list. -/
theorem isEmpty_append_eq {a : Type} (l m : List a) :
    (l ++ m).isEmpty = (l.isEmpty && m.isEmpty) := by
  cases l <;> simp

/-- Draining a copied batch: every copied callback is invoked, in order;
the registrations they make form exactly what is appended to the live
list; their failures are all reported; and at most one new flush is
scheduled — exactly one when the drain started idle and some callback
registered something. -/
theorem drain_spec (copies : List Cb) (s : TickState) :
    (copies.foldl invokeCb s).callbacks
      = s.callbacks ++ (copies.map Cb.calls).flatten ∧
    (copies.foldl invokeCb s).pending
      = (s.pending || !(copies.map Cb.calls).flatten.isEmpty) ∧
    (copies.foldl invokeCb s).scheduled = s.scheduled +
      (if !s.pending && !(copies.map Cb.calls).flatten.isEmpty
        then 1 else 0) ∧
    (copies.foldl invokeCb s).invoked = s.invoked ++ copies.map Cb.cid ∧
    (copies.foldl invokeCb s).handled
      = s.handled ++ (copies.filter Cb.fails).map Cb.cid := by
  induction copies generalizing s with
  | nil => simp
  | cons c cs ih =>
    simp only [List.foldl_cons]
    obtain ⟨i1, i2, i3, i4, i5⟩ := ih (invokeCb s c)
    obtain ⟨v1, v2, v3, v4, v5⟩ := invokeCb_spec s c
    refine ⟨?_, ?_, ?_, ?_, ?_⟩
    · rw [i1, v1]
      simp
    · rw [i2, v2]
      cases hcc : c.calls with
      | nil => simp [hcc]
      | cons x xs => simp [hcc]
    · rw [i3, v3, v2]
      simp only [List.map_cons, List.flatten_cons, isEmpty_append_eq]
      cases hp : s.pending with
      | true => simp
      | false =>
        cases hb : c.calls.isEmpty <;>
          cases hc2 : (List.map Cb.calls cs).flatten.isEmpty <;> simp
    · rw [i4, v4]
      simp
    · rw [i5, v5]
      cases hf : c.fails with
      | true => simp [List.filter_cons, hf]
      | false => simp [List.filter_cons, hf]

/-- `flushCallbacks` drains the batch copied from the state it is given,
with the live list cleared and the pending flag reset first. -/
theorem flushCallbacks_eq (s : TickState) :
    flushCallbacks s
      = s.callbacks.foldl invokeCb { s with pending := false, callbacks := [] } :=
  rfl

/-! ## Claim C6 -/

/-- C6: the drain clears the live list and resets the pending flag before
invoking the copied callbacks, so everything those callbacks pass to
`nextTick` forms a fresh batch — the new live list holds exactly the
newly-registered callbacks — and, the flag having been reset, the first
such registration schedules exactly one new flush; and while a flush is
pending, `nextTick` only appends — it never schedules a second flush. -/
theorem flush_fresh_batch :
    (∀ s : TickState,
      (flushCallbacks s).callbacks = (s.callbacks.map Cb.calls).flatten ∧
      (flushCallbacks s).pending
        = !(s.callbacks.map Cb.calls).flatten.isEmpty ∧
      (flushCallbacks s).scheduled = s.scheduled +
        (if (s.callbacks.map Cb.calls).flatten.isEmpty then 0 else 1)) ∧
    (∀ (cb : Cb) (s : TickState), s.pending = true →
      nextTick cb s = { s with callbacks := s.callbacks ++ [cb] }) := by
  constructor
  · intro s
    rw [flushCallbacks_eq]
    obtain ⟨d1, d2, d3, d4, d5⟩ :=
      drain_spec s.callbacks { s with pending := false, callbacks := [] }
    refine ⟨by rw [d1]; simp, by rw [d2]; simp, ?_⟩
    rw [d3]
    cases hfl : (s.callbacks.map Cb.calls).flatten.isEmpty <;> simp
  · exact nextTick_pending

/-- A callback to register while a flush is pending. -/
def cbW6 : Cb := Cb.mk 3 [] false

/-- A tick state with a flush already pending. -/
def tickW6 : TickState := ⟨[], true, 1, [], []⟩

/-- Witness for C6: registering `cbW6` while `tickW6` already has a flush
pending only appends the callback. -/
theorem flush_fresh_batch_witness :
    nextTick cbW6 tickW6 = { tickW6 with callbacks := tickW6.callbacks ++ [cbW6] } :=
  flush_fresh_batch.2 cbW6 tickW6 rfl

/-! ## Claim C7 -/

/-- C7: when a deferred callback throws, its error goes to the shared
`handleError` path and every remaining callback of the same batch is still
invoked — the invocation trace covers the whole copied batch, failures and
all; and a user watcher's throwing reaction callback is reported via
`handleError` while `run` still returns normally to its caller. -/
theorem callback_errors_contained :
    (∀ s : TickState,
      (flushCallbacks s).invoked = s.invoked ++ s.callbacks.map Cb.cid ∧
      (flushCallbacks s).handled
        = s.handled ++ (s.callbacks.filter Cb.fails).map Cb.cid) ∧
    (∀ (v : JSVal) (e : Nat) (w : Watcher), w.active = true → w.user = true →
      ∃ out, run (Except.ok v) (some e) w = Except.ok out ∧
        (out.fired = true → out.handled = [e])) := by
  constructor
  · intro s
    rw [flushCallbacks_eq]
    obtain ⟨d1, d2, d3, d4, d5⟩ :=
      drain_spec s.callbacks { s with pending := false, callbacks := [] }
    exact ⟨by rw [d4], by rw [d5]⟩
  · intro v e w hact huser
    by_cases hc : ((!strictEq v w.value) || isObject v || w.deep) = true
    · refine ⟨⟨{ w with value := v }, true, true, [e]⟩, ?_, fun _ => rfl⟩
      simp [run, hact, hc, huser]
    · have hc2 : ((!strictEq v w.value) || isObject v || w.deep) = false := by
        revert hc
        cases ((!strictEq v w.value) || isObject v || w.deep) <;> simp
      refine ⟨⟨w, true, false, []⟩, ?_, fun hff => Bool.noConfusion hff⟩
      simp [run, hact, hc2]

/-- A failing and a succeeding callback queued in one batch. -/
def tickW7 : TickState := ⟨[Cb.mk 1 [] true, Cb.mk 2 [] false], true, 1, [], []⟩

/-- A user-defined, active watcher. -/
def wUser : Watcher := ⟨true, false, true, JSVal.undef, [], [], [], []⟩

/-- Witness for C7: draining `tickW7` invokes both callbacks (`1` throws,
`2` still runs) and reports `1`; and `run` on a user watcher whose
callback throws error `9` returns normally with `9` handled. -/
theorem callback_errors_contained_witness :
    ((flushCallbacks tickW7).invoked
        = tickW7.invoked ++ tickW7.callbacks.map Cb.cid ∧
      (flushCallbacks tickW7).handled
        = tickW7.handled ++ (tickW7.callbacks.filter Cb.fails).map Cb.cid) ∧
    (∃ out, run (Except.ok (JSVal.obj 0)) (some 9) wUser = Except.ok out ∧
      (out.fired = true → out.handled = [9])) :=
  ⟨callback_errors_contained.1 tickW7,
    callback_errors_contained.2 (JSVal.obj 0) 9 wUser rfl rfl⟩

/-! ## Claim C10 -/

/-- C10: `parsePath` is total and the getter it returns never throws — a
path containing any character other than `\w`, `.`, `$` makes `parsePath`
bail (returning nothing, upon which the watcher constructor installs
`noop`, which evaluates to `undefined` and dereferences nothing); and for
an accepted path the getter returns `undefined` as soon as an intermediate
value is falsy, instead of raising. -/
theorem parsePath_total_safe :
    (∀ p : String, (∃ c ∈ p.data, allowedChar c = false) → parsePath p = none) ∧
    (∀ (p : String) (h : Nat → List (String × JSVal)) (root : JSVal),
      parsePath p = none →
      ctorEval h p root = JSVal.undef ∧ ctorReads h p root = []) ∧
    (∀ (h : Nat → List (String × JSVal)) (s : String) (rest : List String)
      (v : JSVal), falsy v = true →
      pathEval h (s :: rest) v = JSVal.undef) := by
  refine ⟨?_, ?_, ?_⟩
  · intro p hex
    have hb : bailTest p = true := by
      rw [bailTest, List.any_eq_true]
      obtain ⟨c, hc, hcf⟩ := hex
      exact ⟨c, hc, by rw [hcf]; decide⟩
    rw [parsePath, if_pos hb]
  · intro p h root hnone
    exact ⟨by rw [ctorEval, hnone], by rw [ctorReads, hnone]⟩
  · intro h s rest v hf
    rw [pathEval, if_pos hf]

/-- A path with a character outside `\w`, `.`, `$`. -/
def pathBad : String := "a-b"

/-- The empty object heap. -/
def heapEmpty : Nat → List (String × JSVal) := fun _ => []

/-- A single path segment. -/
def segA : String := "a"

/-- Witness for C10: `"a-b"` is rejected, the resulting watcher getter
yields `undefined` and reads nothing, and walking a segment over `null`
yields `undefined` rather than an error. -/
theorem parsePath_total_safe_witness :
    parsePath pathBad = none ∧
    (ctorEval heapEmpty pathBad (JSVal.obj 0) = JSVal.undef ∧
      ctorReads heapEmpty pathBad (JSVal.obj 0) = []) ∧
    pathEval heapEmpty [segA] JSVal.null = JSVal.undef :=
  have h1 := parsePath_total_safe.1 pathBad (by decide)
  ⟨h1, parsePath_total_safe.2.1 pathBad heapEmpty (JSVal.obj 0) h1,
    parsePath_total_safe.2.2 heapEmpty segA [] JSVal.null rfl⟩

/-! ## Lemmas about the deep traversal -/

/-- Out of call-stack budget. -/
theorem trav_zero (h : THeap) (v : TVal) (seen : List Nat) :
    trav h 0 v seen = none := rfl

/-- Non-objects are skipped entirely. -/
theorem trav_succ_prim (h : THeap) (n : Nat) (seen : List Nat) :
    trav h (n + 1) TVal.prim seen = some seen := rfl

/-- A reference that resolves to nothing is skipped. -/
theorem trav_succ_dangling (h : THeap) (n r : Nat) (seen : List Nat)
    (hr : h[r]? = none) :
    trav h (n + 1) (TVal.ref r) seen = some seen := by
  rw [trav, hr]

/-- Frozen values and virtual nodes are skipped entirely. -/
theorem trav_succ_skip (h : THeap) (n r : Nat) (seen : List Nat)
    (node : HNode) (hr : h[r]? = some node)
    (hskip : (node.isFrozen || node.isVNode) = true) :
    trav h (n + 1) (TVal.ref r) seen = some seen := by
  rw [trav, hr]
  simp [hskip]

/-- Revisiting an instrumented value whose dep id was already seen returns
immediately. -/
theorem trav_succ_seen (h : THeap) (n r : Nat) (seen : List Nat)
    (node : HNode) (d : Nat) (hr : h[r]? = some node)
    (hskip : (node.isFrozen || node.isVNode) = false)
    (hid : node.obId = some d) (hd : d ∈ seen) :
    trav h (n + 1) (TVal.ref r) seen = some seen := by
  rw [trav, hr]
  simp [hskip, hid, hd]

/-- First visit of an instrumented value: its dep id is recorded and the
children are traversed. -/
theorem trav_succ_new (h : THeap) (n r : Nat) (seen : List Nat)
    (node : HNode) (d : Nat) (hr : h[r]? = some node)
    (hskip : (node.isFrozen || node.isVNode) = false)
    (hid : node.obId = some d) (hd : d ∉ seen) :
    trav h (n + 1) (TVal.ref r) seen
      = travList h n node.children.reverse (d :: seen) := by
  rw [trav, hr]
  simp [hskip, hid, hd, travList]

/-- A non-instrumented object contributes nothing to the seen set; its
children are traversed directly. -/
theorem trav_succ_noid (h : THeap) (n r : Nat) (seen : List Nat)
    (node : HNode) (hr : h[r]? = some node)
    (hskip : (node.isFrozen || node.isVNode) = false)
    (hid : node.obId = none) :
    trav h (n + 1) (TVal.ref r) seen
      = travList h n node.children.reverse seen := by
  rw [trav, hr]
  simp [hskip, hid, travList]

/-- Empty child list. -/
theorem travList_nil (h : THeap) (n : Nat) (seen : List Nat) :
    travList h n [] seen = some seen := rfl

/-- An exhausted budget propagates through the child fold. -/
theorem travList_none (h : THeap) (n : Nat) (cs : List TVal) :
    cs.foldl (fun acc c => acc.bind (trav h n c)) none = none := by
  induction cs with
  | nil => rfl
  | cons c cs ih => simp [ih]

/-- The child fold, one child at a time. -/
theorem travList_cons (h : THeap) (n : Nat) (c : TVal) (cs : List TVal)
    (seen : List Nat) :
    travList h n (c :: cs) seen =
      match trav h n c seen with
      | none => none
      | some s2 => travList h n cs s2 := by
  rw [travList, List.foldl_cons]
  cases hc : trav h n c seen with
  | none =>
    simp only [Option.bind, hc]
    exact travList_none h n cs
  | some s2 =>
    simp only [Option.bind, hc]
    rfl

/-- The child fold only grows the seen set (assuming the same of one
step). -/
theorem travList_mono_aux (h : THeap) (n : Nat)
    (ihn : ∀ (v : TVal) (seen s2 : List Nat),
      trav h n v seen = some s2 → seen ⊆ s2) :
    ∀ (cs : List TVal) (seen s2 : List Nat),
      travList h n cs seen = some s2 → seen ⊆ s2 := by
  intro cs
  induction cs with
  | nil =>
    intro seen s2 hs
    rw [travList_nil] at hs
    cases hs
    exact fun x hx => hx
  | cons c cs ih =>
    intro seen s2 hs
    rw [travList_cons] at hs
    cases hc : trav h n c seen with
    | none => rw [hc] at hs; cases hs
    | some s1 =>
      rw [hc] at hs
      exact fun x hx => ih s1 s2 hs (ihn c seen s1 hc hx)

/-- The traversal only grows the seen set. -/
theorem trav_mono (h : THeap) :
    ∀ (n : Nat) (v : TVal) (seen s2 : List Nat),
      trav h n v seen = some s2 → seen ⊆ s2 := by
  intro n
  induction n with
  | zero =>
    intro v seen s2 hs
    rw [trav_zero] at hs
    cases hs
  | succ n ih =>
    intro v seen s2 hs
    match v with
    | TVal.prim =>
      rw [trav_succ_prim] at hs
      cases hs
      exact fun x hx => hx
    | TVal.ref r =>
      cases hr : h[r]? with
      | none =>
        rw [trav_succ_dangling h n r seen hr] at hs
        cases hs
        exact fun x hx => hx
      | some node =>
        cases hskip : (node.isFrozen || node.isVNode) with
        | true =>
          rw [trav_succ_skip h n r seen node hr hskip] at hs
          cases hs
          exact fun x hx => hx
        | false =>
          cases hid : node.obId with
          | some d =>
            by_cases hd : d ∈ seen
            · rw [trav_succ_seen h n r seen node d hr hskip hid hd] at hs
              cases hs
              exact fun x hx => hx
            · rw [trav_succ_new h n r seen node d hr hskip hid hd] at hs
              have hsub := travList_mono_aux h n ih node.children.reverse
                (d :: seen) s2 hs
              exact fun x hx => hsub (List.mem_cons_of_mem d hx)
          | none =>
            rw [trav_succ_noid h n r seen node hr hskip hid] at hs
            exact travList_mono_aux h n ih node.children.reverse seen s2 hs

/-- All dep ids carried by instrumented heap nodes. -/
def heapIds (h : THeap) : List Nat := h.filterMap HNode.obId

/-- How many distinct instrumented dep ids of the heap are not yet in the
seen set — the traversal's termination measure. -/
def freshCount (h : THeap) (seen : List Nat) : Nat :=
  ((heapIds h).dedup.filter (fun d => decide (d ∉ seen))).length

/-- Filtering by non-membership in a larger set keeps fewer elements. -/
theorem filter_not_mem_length_le (L s1 s2 : List Nat) (hsub : s1 ⊆ s2) :
    (L.filter (fun d => decide (d ∉ s2))).length
      ≤ (L.filter (fun d => decide (d ∉ s1))).length := by
  induction L with
  | nil => exact le_refl _
  | cons a L ih =>
    by_cases h2 : a ∈ s2
    · by_cases h1 : a ∈ s1
      · simpa [List.filter_cons, h1, h2] using ih
      · have hgoal : (List.filter (fun d => decide (d ∉ s2)) L).length
            ≤ (List.filter (fun d => decide (d ∉ s1)) L).length + 1 :=
          le_trans ih (Nat.le_succ _)
        simpa [List.filter_cons, h1, h2] using hgoal
    · have h1 : a ∉ s1 := fun hx => h2 (hsub hx)
      simpa [List.filter_cons, h1, h2] using Nat.succ_le_succ ih

/-- The termination measure never grows as the seen set grows. -/
theorem freshCount_anti (h : THeap) (s1 s2 : List Nat) (hsub : s1 ⊆ s2) :
    freshCount h s2 ≤ freshCount h s1 :=
  filter_not_mem_length_le (heapIds h).dedup s1 s2 hsub

/-- Marking a fresh listed id as seen strictly shrinks the filtered
list. -/
theorem filter_cons_seen_lt (L : List Nat) (d : Nat) (seen : List Nat)
    (hd : d ∈ L) (hfresh : d ∉ seen) :
    (L.filter (fun x => decide (x ∉ d :: seen))).length
      < (L.filter (fun x => decide (x ∉ seen))).length := by
  induction L with
  | nil => cases hd
  | cons a L ih =>
    by_cases had : a = d
    · subst had
      have hle : (List.filter (fun x => decide (x ∉ a :: seen)) L).length
          ≤ (List.filter (fun x => decide (x ∉ seen)) L).length :=
        filter_not_mem_length_le L seen (a :: seen)
          (fun x hx => List.mem_cons_of_mem a hx)
      have hgoal : (List.filter (fun x => decide (x ∉ a :: seen)) L).length
          < (List.filter (fun x => decide (x ∉ seen)) L).length + 1 :=
        Nat.lt_succ_of_le hle
      simpa [List.filter_cons, hfresh] using hgoal
    · have hdL : d ∈ L := by
        rcases List.mem_cons.mp hd with he | hdL
        · exact absurd he.symm had
        · exact hdL
      have hlt := ih hdL
      by_cases ha : a ∈ seen
      · simpa [List.filter_cons, ha, had] using hlt
      · simpa [List.filter_cons, ha, had] using Nat.succ_lt_succ hlt

/-- Recording a fresh instrumented id strictly decreases the measure. -/
theorem freshCount_cons_lt (h : THeap) (d : Nat) (seen : List Nat)
    (hd : d ∈ heapIds h) (hfresh : d ∉ seen) :
    freshCount h (d :: seen) < freshCount h seen :=
  filter_cons_seen_lt (heapIds h).dedup d seen (List.mem_dedup.mpr hd) hfresh

/-- A fresh instrumented id witnesses a positive measure. -/
theorem freshCount_pos (h : THeap) (d : Nat) (seen : List Nat)
    (hd : d ∈ heapIds h) (hfresh : d ∉ seen) :
    0 < freshCount h seen := by
  have hmem : d ∈ (heapIds h).dedup.filter (fun x => decide (x ∉ seen)) := by
    rw [List.mem_filter]
    exact ⟨List.mem_dedup.mpr hd, by simp [hfresh]⟩
  exact List.length_pos.mpr (List.ne_nil_of_mem hmem)

/-- Child folds terminate when each single step does within the measure. -/
theorem travList_total (h : THeap) (m : Nat)
    (ihm : ∀ (v : TVal) (seen : List Nat), freshCount h seen ≤ m →
      ∃ s2, trav h (m + 1) v seen = some s2) :
    ∀ (cs : List TVal) (seen : List Nat), freshCount h seen ≤ m →
      ∃ s2, travList h (m + 1) cs seen = some s2 := by
  intro cs
  induction cs with
  | nil => intro seen hle; exact ⟨seen, rfl⟩
  | cons c cs ih =>
    intro seen hle
    obtain ⟨s1, hs1⟩ := ihm c seen hle
    have hsub := trav_mono h (m + 1) c seen s1 hs1
    have hle1 : freshCount h s1 ≤ m :=
      le_trans (freshCount_anti h seen s1 hsub) hle
    obtain ⟨s2, hs2⟩ := ih s1 hle1
    refine ⟨s2, ?_⟩
    rw [travList_cons, hs1]
    exact hs2

/-- A node's dep id is listed among the heap's instrumented ids. -/
theorem mem_heapIds (h : THeap) (node : HNode) (d : Nat)
    (hnode : node ∈ h) (hid : node.obId = some d) : d ∈ heapIds h := by
  rw [heapIds, List.mem_filterMap]
  exact ⟨node, hnode, hid⟩

/-- On a heap whose non-skipped nodes are all instrumented, a call-stack
budget one beyond the number of unseen instrumented ids always suffices:
every recursion into an unvisited object records a fresh id first, so
recursion depth is bounded by the measure. -/
theorem trav_total (h : THeap)
    (hinst : ∀ node ∈ h, node.isFrozen = false → node.isVNode = false →
      node.obId.isSome = true) :
    ∀ (n : Nat) (v : TVal) (seen : List Nat), freshCount h seen ≤ n →
      ∃ s2, trav h (n + 1) v seen = some s2 := by
  intro n
  induction n using Nat.strong_induction_on with
  | _ n ihs =>
    intro v seen hle
    match v with
    | TVal.prim => exact ⟨seen, trav_succ_prim h n seen⟩
    | TVal.ref r =>
      cases hr : h[r]? with
      | none => exact ⟨seen, trav_succ_dangling h n r seen hr⟩
      | some node =>
        have hnode : node ∈ h := by
          have hlt : r < h.length := by
            by_contra hge
            rw [List.getElem?_eq_none (Nat.le_of_not_lt hge)] at hr
            cases hr
          have hget : h[r] = node := by
            have := List.getElem?_eq_getElem hlt
            rw [this] at hr
            exact (Option.some.injEq _ _).mp hr
          exact hget ▸ List.getElem_mem hlt
        cases hskip : (node.isFrozen || node.isVNode) with
        | true => exact ⟨seen, trav_succ_skip h n r seen node hr hskip⟩
        | false =>
          have hfz : node.isFrozen = false := by
            cases hf2 : node.isFrozen
            · rfl
            · rw [hf2] at hskip; cases hskip
          have hvn : node.isVNode = false := by
            cases hv2 : node.isVNode
            · rfl
            · rw [hv2, Bool.or_true] at hskip; cases hskip
          cases hid : node.obId with
          | none =>
            have hsome := hinst node hnode hfz hvn
            rw [hid] at hsome
            cases hsome
          | some d =>
            by_cases hd : d ∈ seen
            · exact ⟨seen, trav_succ_seen h n r seen node d hr hskip hid hd⟩
            · have hdh : d ∈ heapIds h := mem_heapIds h node d hnode hid
              have hpos : 0 < freshCount h seen := freshCount_pos h d seen hdh hd
              have hlt : freshCount h (d :: seen) < freshCount h seen :=
                freshCount_cons_lt h d seen hdh hd
              have hn1 : 1 ≤ n := le_trans hpos hle
              obtain ⟨m, rfl⟩ : ∃ m, n = m + 1 := ⟨n - 1, by omega⟩
              have hlem : freshCount h (d :: seen) ≤ m := by omega
              obtain ⟨s2, hs2⟩ := travList_total h m
                (fun v2 seen2 hle2 => ihs m (by omega) v2 seen2 hle2)
                node.children.reverse (d :: seen) hlem
              exact ⟨s2, by
                rw [trav_succ_new h (m + 1) r seen node d hr hskip hid hd]
                exact hs2⟩

/-- Termination of the deep traversal on fully instrumented heaps. -/
theorem traverse_terminates_of_instrumented (h : THeap)
    (hinst : ∀ node ∈ h, node.isFrozen = false → node.isVNode = false →
      node.obId.isSome = true) (v : TVal) :
    TraverseTerminates h v := by
  obtain ⟨s2, hs⟩ := trav_total h hinst (freshCount h []) v [] (le_refl _)
  exact ⟨freshCount h [] + 1, s2, hs⟩

/-- Unfolding of the top-level `traverse`. -/
theorem traverse_eq (h : THeap) (fuel : Nat) (v : TVal) :
    traverse h fuel v = match trav h fuel v [] with
      | none => none
      | some _ => some [] := rfl

/-! ## Claim C9 -/

/-- A one-node object graph with a reference cycle and no `__ob__`: a plain
non-observed object whose single field points back to itself. -/
def cycHeap : THeap := [⟨false, false, none, [TVal.ref 0]⟩]

/-- On the non-instrumented cycle, no call-stack budget ever suffices: the
visited-set guard is keyed on `__ob__.dep.id`, which this object lacks. -/
theorem trav_cycHeap_none : ∀ n, trav cycHeap n (TVal.ref 0) [] = none := by
  intro n
  induction n with
  | zero => rfl
  | succ n ih =>
    have h1 := trav_succ_noid cycHeap n 0 []
      ⟨false, false, none, [TVal.ref 0]⟩ rfl rfl rfl
    have h2 : (HNode.mk false false none [TVal.ref 0]).children.reverse
        = [TVal.ref 0] := rfl
    rw [h1, h2, travList_cons, ih]

/-- C9 counterexample: `traverse` does not terminate on every cyclic input —
on a cyclic object graph whose participants carry no observer (no
`__ob__`), the visited-set guard never fires and `_traverse` recurses
forever. -/
theorem traverse_cycle_counterexample :
    ¬ TraverseTerminates cycHeap (TVal.ref 0) := by
  rintro ⟨n, res, hres⟩
  rw [trav_cycHeap_none n] at hres
  cases hres

/-- C9 as amended: on every value graph whose non-skipped (not frozen, not
virtual-node) objects are all instrumented with an observer, the deep
traversal terminates — cycles included, cut by the per-call visited set of
dep ids; non-objects, frozen values and virtual nodes are skipped
entirely; and the visited set is cleared after each top-level call. -/
theorem traverse_cycle_safe (h : THeap)
    (hinst : ∀ node ∈ h, node.isFrozen = false → node.isVNode = false →
      node.obId.isSome = true) :
    (∀ v : TVal, TraverseTerminates h v) ∧
    (∀ (n : Nat) (seen : List Nat), trav h (n + 1) TVal.prim seen = some seen) ∧
    (∀ (n r : Nat) (seen : List Nat) (node : HNode), h[r]? = some node →
      (node.isFrozen || node.isVNode) = true →
      trav h (n + 1) (TVal.ref r) seen = some seen) ∧
    (∀ (fuel : Nat) (v : TVal) (res : List Nat),
      traverse h fuel v = some res → res = []) := by
  refine ⟨traverse_terminates_of_instrumented h hinst, trav_succ_prim h, ?_, ?_⟩
  · intro n r seen node hr hskip
    exact trav_succ_skip h n r seen node hr hskip
  · intro fuel v res hres
    rw [traverse_eq] at hres
    cases htr : trav h fuel v [] with
    | none => rw [htr] at hres; cases hres
    | some s => rw [htr] at hres; cases hres; rfl

/-- An instrumented value graph with a self-cycle (dep id `4`), a frozen
child and a primitive child. -/
def obHeapW : THeap :=
  [⟨false, false, some 4, [TVal.ref 0, TVal.ref 1, TVal.prim]⟩,
    ⟨true, false, none, []⟩]

/-- Witness for the amended C9: traversal of the instrumented cyclic graph
terminates, and the frozen child is skipped. -/
theorem traverse_cycle_safe_witness :
    TraverseTerminates obHeapW (TVal.ref 0) ∧
    trav obHeapW 1 (TVal.ref 1) [] = some [] :=
  have h := traverse_cycle_safe obHeapW (by decide)
  ⟨h.1 (TVal.ref 0), h.2.2.1 0 1 [] ⟨true, false, none, []⟩ rfl rfl⟩
